import Mathlib

/-!
Shallow embedding of the rustypaste paste-lifecycle engine.

File names and path fragments are modelled as lists of characters,
directories as lists of file names, and system time as milliseconds since
the UNIX epoch (the stored timestamp extensions have millisecond
resolution).  Fallible operations return Except or Option.  Randomness
(the random-URL generator) and DNS resolution are supplied as oracles.
-/

/-- File names and path fragments are lists of characters. -/
abbrev Name := List Char

/-- Numeric value of a string of decimal digit characters, as accumulated by a
decimal integer parse (callers guard the characters with Char.isDigit). -/
def digitsVal (s : Name) : Nat :=
  s.foldl (fun a c => a * 10 + (c.toNat - 48)) 0

/-- Model of str::parse::<u64> on the inputs arising here: an optional leading
plus sign, then one or more decimal digits, with value below 2 ^ 64. -/
def parseU64 (s : Name) : Option Nat :=
  let t := if s.headD ' ' = '+' then s.tail else s
  if t ≠ [] ∧ t.all Char.isDigit ∧ digitsVal t < 2 ^ 64 then some (digitsVal t) else none

/-- Decimal digit character of a value below ten. -/
def digitChar (d : Nat) : Char :=
  match d with
  | 0 => '0' | 1 => '1' | 2 => '2' | 3 => '3' | 4 => '4'
  | 5 => '5' | 6 => '6' | 7 => '7' | 8 => '8' | _ => '9'

/-- Fuel-driven accumulator loop producing the decimal digits of a number in
front of acc; the fuel never runs out when it exceeds the number. -/
def natDigitsAux : Nat → Nat → Name → Name
  | 0, _, acc => acc
  | fuel + 1, n, acc =>
    if n < 10 then digitChar n :: acc
    else natDigitsAux fuel (n / 10) (digitChar (n % 10) :: acc)

/-- Decimal digit string of a natural number, as produced by the Display
formatting of Rust unsigned integers. -/
def natDigits (n : Nat) : Name := natDigitsAux (n + 1) n []

/-- Recursive reference form of natDigits, convenient for induction. -/
def natDigitsRec (n : Nat) : Name :=
  if _h : n < 10 then [digitChar n]
  else natDigitsRec (n / 10) ++ [digitChar (n % 10)]
termination_by n
decreasing_by exact Nat.div_lt_self (by omega) (by omega)

/-- Decidable equality of Except values with decidable components. -/
instance {ε α : Type} [DecidableEq ε] [DecidableEq α] : DecidableEq (Except ε α) := fun a b =>
  match a, b with
  | .error x, .error y =>
    if h : x = y then isTrue (by rw [h]) else isFalse (fun he => h (Except.noConfusion he id))
  | .ok x, .ok y =>
    if h : x = y then isTrue (by rw [h]) else isFalse (fun he => h (Except.noConfusion he id))
  | .error _, .ok _ => isFalse (fun he => Except.noConfusion he)
  | .ok _, .error _ => isFalse (fun he => Except.noConfusion he)

/-- Length of the maximal all-digit suffix of a name. -/
def digitSuffixLen (n : Name) : Nat := (n.reverse.takeWhile Char.isDigit).length

/-- Whether the timestamp-extension regex (a literal dot followed by at least
ten digits, anchored at the end) matches the name. -/
def hasTimestampSuffix (n : Name) : Bool :=
  decide (10 ≤ digitSuffixLen n) &&
    decide ((n.reverse.drop (digitSuffixLen n)).headD ' ' = '.')

/-- Removal of the single trailing timestamp-extension match, as done by
TIMESTAMP_EXTENSION_REGEX.replacen(path, 1, ""). -/
def stripTimestampSuffix (n : Name) : Name :=
  if hasTimestampSuffix n then (n.reverse.drop (digitSuffixLen n + 1)).reverse else n

/-- The portion of a name after its last dot; the whole name when it has no
dot.  Helper for fileExtension and fileStem. -/
def extSuffix (n : Name) : Name := (n.reverse.takeWhile (fun c => c ≠ '.')).reverse

/-- Model of Rust Path::extension on a bare file name: the part after the last
dot; none when there is no dot, when the only dot is the leading character, or
for the special name made of two dots. -/
def fileExtension (n : Name) : Option Name :=
  if n = ['.', '.'] then none
  else if (extSuffix n).length = n.length then none
  else if (extSuffix n).length + 1 = n.length then none
  else some (extSuffix n)

/-- Model of Rust Path::file_stem on a bare file name: the part before the
extension, or the whole name when there is no extension. -/
def fileStem (n : Name) : Name :=
  if n = ['.', '.'] then n
  else if (extSuffix n).length = n.length ∨ (extSuffix n).length + 1 = n.length then n
  else n.take (n.length - (extSuffix n).length - 1)

/-- Model of PathBuf::set_extension restricted to a bare file name: the stem,
then a dot and the new extension (no dot when the new extension is empty). -/
def setExtension (n ext : Name) : Name :=
  fileStem n ++ (if ext = [] then [] else '.' :: ext)

/-- Whether a sibling name matches the glob pattern "<stem>.[0-9]*": the stem,
a literal dot, one digit, then zero or more further characters. -/
def matchesTsGlob (stem n : Name) : Bool :=
  stem.isPrefixOf n &&
    match n.drop stem.length with
    | '.' :: c :: _ => c.isDigit
    | _ => false

/-- Model of util::glob_match_file: the trailing timestamp extension is
stripped once, the pattern "<stripped>.[0-9]*" is globbed among the sibling
names in dir, and a live match (whose extension parses as a u64 number of
milliseconds strictly above the current time) replaces the stripped path.
The glob crate yields paths in alphabetical order and the source takes the
last one; the claims below only involve directories with at most one match,
so dir is used in the order given.  Time is compared at millisecond
granularity: get_system_time() < Duration::from_millis(ts) holds exactly when
the millisecond floor of the system time is below ts. -/
def glob_match_file (dir : List Name) (path : Name) (now : Nat) : Name :=
  match (dir.filter fun n => matchesTsGlob (stripTimestampSuffix path) n).getLast? with
  | some m =>
    match (fileExtension m).bind parseU64 with
    | some ts => if now < ts then m else stripTimestampSuffix path
    | none => stripTimestampSuffix path
  | none => stripTimestampSuffix path

/-- Paste kinds (paste::PasteType). -/
inductive PT where
  | file
  | remoteFile
  | oneshot
  | url
  | oneshotUrl
deriving DecidableEq

/-- Directory name of a paste kind (PasteType::get_dir); empty for the two
kinds stored in the upload root. -/
def PT.getDir : PT → Name
  | .file => []
  | .remoteFile => []
  | .oneshot => ("oneshot").data
  | .url => ("url").data
  | .oneshotUrl => ("oneshot_url").data

/-- The filesystem under upload_path: the root and the three kind
subdirectories, each listing its regular file names (the three subdirectory
entries of the root are represented separately, not in root). -/
structure Fs where
  root : List Name
  oneshot : List Name
  url : List Name
  oneshotUrl : List Name
deriving DecidableEq

/-- Listing of the directory a paste kind is stored in. -/
def Fs.listing (fs : Fs) : PT → List Name
  | .file => fs.root
  | .remoteFile => fs.root
  | .oneshot => fs.oneshot
  | .url => fs.url
  | .oneshotUrl => fs.oneshotUrl

/-- Whether a name matches the glob pattern "*.[0-9]*": it contains a dot
immediately followed by a digit. -/
def matchesExpiryGlob : Name → Bool
  | c1 :: c2 :: rest => (c1 == '.' && c2.isDigit) || matchesExpiryGlob (c2 :: rest)
  | _ => false

/-- Model of util::get_expired_files: for each of the four listed kinds, the
entries of its directory matching "*.[0-9]*" whose extension parses as a u64
millisecond timestamp strictly below the current time.  Filesystem errors are
skipped in the source (filter_map over ok values); the pure model is
error-free. -/
def get_expired_files (fs : Fs) (now : Nat) : List (PT × Name) :=
  [PT.file, PT.oneshot, PT.url, PT.oneshotUrl].flatMap fun t =>
    ((((fs.listing t).filter matchesExpiryGlob).filter fun n =>
      match (fileExtension n).bind parseU64 with
      | some ts => decide (ts < now)
      | none => false).map fun n => (t, n))

/-- Model of str::parse::<Byte> for the plain decimal values occurring in
Content-Length headers (the byte_unit parser also accepts unit-suffixed
forms, which HTTP clients do not send); value below 2 ^ 128. -/
def parseByte (s : Name) : Option Nat :=
  if s ≠ [] ∧ s.all Char.isDigit ∧ digitsVal s < 2 ^ 128 then some (digitsVal s) else none

/-- Outcome of the content-length limiter middleware: rejected with 413
"upload limit exceeded" before the inner service runs, or forwarded untouched
to the inner service. -/
inductive LimiterOutcome where
  | rejected
  | forwarded
deriving DecidableEq

/-- Model of ContentLengthLimiterMiddleware::call: the Content-Length header,
when present and parseable, is compared against the configured maximum; the
request is rejected when it is strictly larger, and forwarded in every other
case (no check happens when the header is absent or unparseable). -/
def content_length_limiter (contentLength : Option Name) (maxBytes : Nat) : LimiterOutcome :=
  match contentLength.bind parseByte with
  | some n => if maxBytes < n then .rejected else .forwarded
  | none => .forwarded

/-- The dedup guard in the upload handler (server.rs): the short-circuit runs
when the paste kind is none of Oneshot, RemoteFile and OneshotUrl, no expiry
date is set, and paste.duplicate_files is configured to false. -/
def dedup_check_applies (t : PT) (expiryDate : Option Nat) (duplicateFiles : Option Bool) : Bool :=
  !(t == PT.oneshot) && !(t == PT.remoteFile) && !(t == PT.oneshotUrl) &&
    expiryDate.isNone && !(duplicateFiles.getD true)

/-- Modelled from the spec: the Directory digest index (src/file.rs in this
snapshot is an earlier revision that lacks the Directory scanner used by
server.rs and paste.rs).  Per the spec, the dedup lookup walks the stored
files, excludes any name matching the timestamp-suffix regex, and returns the
first file whose SHA-256 digest equals the requested one.  Stored files are
listed as (name, digest) pairs. -/
def directory_get_file (files : List (Name × Name)) (digest : Name) : Option Name :=
  ((files.filter fun f => !(hasTimestampSuffix f.1)).find? fun f => f.2 == digest).map
    fun f => f.1

/-- The dedup short-circuit of the upload handler: when the guard holds, the
digest of the uploaded bytes is looked up and an existing file name may be
returned, in which case the handler pushes that URL and skips the store (no
new bytes are written). -/
def upload_dedup_shortcut (t : PT) (expiryDate : Option Nat) (duplicateFiles : Option Bool)
    (files : List (Name × Name)) (digest : Name) : Option Name :=
  if dedup_check_applies t expiryDate duplicateFiles then directory_get_file files digest
  else none

/-- Path components as parsed by Rust (Prefix components do not occur on the
modelled platform; RootDir is carried by the MPath.abs flag). -/
inductive PComp where
  | cur
  | up
  | normal (s : Name)
deriving DecidableEq

/-- A path: an absolute flag and the component list. -/
structure MPath where
  abs : Bool
  segs : List PComp
deriving DecidableEq

/-- One step of the path_clean fold: CurDir is dropped; ParentDir pops a
trailing Normal, is dropped at the root of an absolute path, and is kept
otherwise; Normal is pushed. -/
def cleanStep (abs : Bool) (out : List PComp) : PComp → List PComp
  | .cur => out
  | .up =>
    match out.getLast? with
    | some (.normal _) => out.dropLast
    | some .up => out ++ [.up]
    | some .cur => out ++ [.up]
    | none => if abs then out else out ++ [.up]
  | .normal s => out ++ [.normal s]

/-- Lexical normalization of a component list (path_clean::clean). -/
def cleanSegs (abs : Bool) (segs : List PComp) : List PComp :=
  segs.foldl (cleanStep abs) []

/-- Lexical normalization of a path. -/
def clean (p : MPath) : MPath := ⟨p.abs, cleanSegs p.abs p.segs⟩

/-- Component markers used by starts_with comparisons. -/
inductive RComp where
  | root
  | cur
  | up
  | normal (s : Name)
deriving DecidableEq

/-- The component sequence Rust iterates for a cleaned path: a RootDir for an
absolute path, a lone CurDir for the empty relative path (path_clean returns
a dot there), then the segments. -/
def cleanedComps (p : MPath) : List RComp :=
  (if p.abs then [RComp.root] else if p.segs = [] then [RComp.cur] else []) ++
    p.segs.map fun c =>
      match c with
      | .cur => RComp.cur
      | .up => RComp.up
      | .normal s => RComp.normal s

/-- Model of util::safe_path_join: the join of base and part (an absolute part
replaces base entirely, as Path::join does) is lexically cleaned and returned
only when its components start with those of the cleaned base. -/
def safe_path_join (base part : MPath) : Except Unit MPath :=
  let joined : MPath := if part.abs then part else ⟨base.abs, base.segs ++ part.segs⟩
  let new_path := clean joined
  let cleaned_base := clean base
  if (cleanedComps cleaned_base).isPrefixOf (cleanedComps new_path) then .ok new_path
  else .error ()

/-- Model of Rust Path::file_name on a path given as a string: the last
component after dropping separators and CurDir entries; none when that
component is ParentDir or when nothing remains. -/
def pathFileName (p : Name) : Option Name :=
  let comps := (p.splitOn '/').filter fun c => c ≠ [] ∧ c ≠ ['.']
  match comps.getLast? with
  | some c => if c = ['.', '.'] then none else some c
  | none => none

/-- Space handling policy (config::SpaceHandlingConfig). -/
inductive SpaceHandling where
  | replace
  | encode
deriving DecidableEq

/-- Model of SpaceHandlingConfig::process_filename: spaces become underscores
(replace) or the percent-encoding %20 (encode). -/
def processFilename : SpaceHandling → Name → Name
  | .replace, n => n.map fun c => if c = ' ' then '_' else c
  | .encode, n => n.flatMap fun c => if c = ' ' then ['%', '2', '0'] else [c]

/-- Random-URL configuration, with the randomness supplied as an oracle:
generated is the value random_url.generate() returned for this request (none
when generation is disabled). -/
structure RandomUrlCfg where
  suffix_mode : Option Bool
  generated : Option Name
deriving DecidableEq

/-- The configuration fields read by the store operations. -/
structure PasteCfg where
  mime_blacklist : List Name
  default_extension : Name
  random_url : Option RandomUrlCfg
  handle_spaces : Option SpaceHandling
deriving DecidableEq

/-- The MIME sniffing result of infer::get over the uploaded bytes: the MIME
type and the extension it implies (an oracle for the external infer crate). -/
structure Sniffed where
  mime : Name
  ext : Name
deriving DecidableEq

/-- Whether the sniffed MIME type of the upload is in the configured
blacklist (the loop at the top of store_file). -/
def mimeBlacklisted (cfg : PasteCfg) (fileType : Option Sniffed) : Bool :=
  match fileType with
  | some s => cfg.mime_blacklist.contains s.mime
  | none => false

/-- Whether a name is a single normal path component.  In store_file the name
is joined onto the kind directory with safe_path_join; for a relative part
consisting of one normal component that join always succeeds (see
safe_path_join_single_component below), so this guard models the join
failure cases at the name level. -/
def singleComponentOk (n : Name) : Bool :=
  !(n == []) && !(n.contains '/') && !(n == ['.']) && !(n == ['.', '.'])

/-- The filename normalization at the top of store_file: the file_name
component of the uploaded name, with a lone dash becoming stdin and a missing
or CurDir component becoming the literal name file (the dot arm mirrors the
source and is unreachable, since Path::file_name never yields a dot). -/
def normalizeFileName (fileName : Name) : Name :=
  match pathFileName fileName with
  | some c => if c = ['-'] then ("stdin").data else if c = ['.'] then ("file").data else c
  | none => ("file").data

/-- The name synthesis of store_file after normalization and space handling:
the name is split on dots with the dotfile shift, the extension is the joined
remainder or the sniffed or default extension, the random-URL generator may
replace the stem or extend the extension, set_file_name and set_extension
rebuild the candidate, and a header-supplied filename overrides the result. -/
def synthFinalName (fn1 : Name) (headerFilename : Option Name) (cfg : PasteCfg)
    (fileType : Option Sniffed) : Name :=
  let parts := fn1.splitOn '.'
  let dotfile := parts.headD [] = ([] : Name)
  let lowerBound := if dotfile then 2 else 1
  let fname :=
    if dotfile then '.' :: (parts.getD 1 []) else parts.headD []
  let extension :=
    if lowerBound < parts.length then List.intercalate ['.'] (parts.drop lowerBound)
    else
      match fileType with
      | some s => s.ext
      | none => cfg.default_extension
  let (fname2, ext2) :=
    match cfg.random_url with
    | some rcfg =>
      match rcfg.generated with
      | some rt =>
        if rcfg.suffix_mode = some true then (fname, rt ++ '.' :: extension)
        else (rt, extension)
      | none => (fname, extension)
    | none => (fname, extension)
  match headerFilename with
  | some h => h
  | none => setExtension fname2 ext2

/-- Errors of Paste::store_file, mapped from the source: the blacklist check
fails with UnsupportedMediaType ("this file type is not permitted"), the path
join with an invalid-path error, and the collision check with Conflict
("file already exists" and a newline). -/
inductive StoreError where
  | unsupportedMediaType
  | invalidPath
  | conflict
deriving DecidableEq

/-- The uploaded name after normalization and the optional space handling,
as computed at the top of store_file. -/
def storeFn1 (fileName : Name) (cfg : PasteCfg) : Name :=
  match cfg.handle_spaces with
  | some h => processFilename h (normalizeFileName fileName)
  | none => normalizeFileName fileName

/-- The final (served) candidate name a store_file call synthesizes. -/
def storeFinalName (fileName : Name) (headerFilename : Option Name) (cfg : PasteCfg)
    (fileType : Option Sniffed) : Name :=
  synthFinalName (storeFn1 fileName cfg) headerFilename cfg fileType

/-- Model of Paste::store_file.  dir lists the kind directory the paste is
stored into and now is the current time in milliseconds.  On success the pair
(served name, on-disk name) is returned; the source writes the bytes to the
on-disk name and returns the served name.  An error means nothing was
written. -/
def store_file (fileName : Name) (expiryDate : Option Nat) (headerFilename : Option Name)
    (cfg : PasteCfg) (fileType : Option Sniffed) (dir : List Name) (now : Nat) :
    Except StoreError (Name × Name) :=
  if mimeBlacklisted cfg fileType then .error .unsupportedMediaType
  else if singleComponentOk (storeFn1 fileName cfg) then
    if glob_match_file dir (storeFinalName fileName headerFilename cfg fileType) now ∈ dir then
      .error .conflict
    else
      .ok (storeFinalName fileName headerFilename cfg fileType,
        match expiryDate with
        | some ts => storeFinalName fileName headerFilename cfg fileType ++ '.' :: natDigits ts
        | none => storeFinalName fileName headerFilename cfg fileType)
  else .error .invalidPath

/-- A parsed URL at the interface used by the source: scheme, optional host,
optional explicit port, and the path segments (none for opaque
cannot-be-a-base URLs such as mailto forms). -/
structure ParsedUrl where
  scheme : Name
  host : Option Name
  port : Option Nat
  pathSegs : Option (List Name)
deriving DecidableEq

/-- Characters allowed in a URL scheme after the leading letter. -/
def schemeCharOk (c : Char) : Bool := c.isAlphanum || c == '+' || c == '-' || c == '.'

/-- Model of url::Url::parse for the input shapes exercised here: an input
without a scheme (no colon, or an invalid scheme token) is a relative URL and
fails; scheme://host[:port][/path] yields a host and path segments (an empty
path reads as a single empty segment, as the url crate normalizes the path of
a special URL to a slash); any other scheme:rest input is an opaque URL with
no host and no path segments. -/
def urlParse (s : Name) : Option ParsedUrl :=
  let sch := s.takeWhile fun c => c ≠ ':'
  if sch.length = s.length then none
  else if sch = [] ∨ ¬ (sch.headD ' ').isAlpha ∨ ¬ (sch.all schemeCharOk) then none
  else
    let rest := s.drop (sch.length + 1)
    match rest with
    | '/' :: '/' :: rest2 =>
      let auth := rest2.takeWhile fun c => c ≠ '/'
      let hostPart := auth.takeWhile fun c => c ≠ ':'
      if hostPart = [] then none
      else
        let portGiven := hostPart.length < auth.length
        let portPart := auth.drop (hostPart.length + 1)
        match (if portGiven then some (parseU64 portPart) else none) with
        | some none => none
        | portParsed =>
          let pathRest := rest2.drop auth.length
          let segs :=
            match pathRest with
            | [] => [([] : Name)]
            | _ :: p => p.splitOn '/'
          some ⟨sch, some hostPart, portParsed.bind id, some segs⟩
    | _ => some ⟨sch, none, none, none⟩

/-- Model of Url::port_or_known_default: the explicit port, or 80 for http
and 443 for https. -/
def portOrKnownDefault (u : ParsedUrl) : Option Nat :=
  match u.port with
  | some p => some p
  | none =>
    if u.scheme = ("http").data then some 80
    else if u.scheme = ("https").data then some 443
    else none

/-- An IP address: four octets, or eight 16-bit segments. -/
inductive IpAddr where
  | v4 (a b c d : Nat)
  | v6 (s0 s1 s2 s3 s4 s5 s6 s7 : Nat)
deriving DecidableEq

/-- Model of Ipv6Addr::to_ipv4: IPv4-compatible and IPv4-mapped addresses
(first five segments zero, sixth zero or ffff) convert to the embedded IPv4
address. -/
def v6ToIpv4 (s0 s1 s2 s3 s4 s5 s6 s7 : Nat) : Option (Nat × Nat × Nat × Nat) :=
  if s0 = 0 ∧ s1 = 0 ∧ s2 = 0 ∧ s3 = 0 ∧ s4 = 0 ∧ (s5 = 0 ∨ s5 = 65535) then
    some (s6 / 256, s6 % 256, s7 / 256, s7 % 256)
  else none

/-- Model of util::is_disallowed_ipv4: the standard-library classes
(loopback, private, link-local, multicast, broadcast, documentation,
unspecified) plus carrier-grade NAT 100.64/10, benchmarking 198.18/15, the
IETF protocol block 192.0.0/24, reserved 240/4, and the metadata address. -/
def is_disallowed_ipv4 (a b c d : Nat) : Bool :=
  decide (a = 127) ||
  decide (a = 10 ∨ (a = 172 ∧ 16 ≤ b ∧ b ≤ 31) ∨ (a = 192 ∧ b = 168)) ||
  decide (a = 169 ∧ b = 254) ||
  decide (224 ≤ a ∧ a ≤ 239) ||
  decide (a = 255 ∧ b = 255 ∧ c = 255 ∧ d = 255) ||
  decide ((a = 192 ∧ b = 0 ∧ c = 2) ∨ (a = 198 ∧ b = 51 ∧ c = 100) ∨
    (a = 203 ∧ b = 0 ∧ c = 113)) ||
  decide (a = 0 ∧ b = 0 ∧ c = 0 ∧ d = 0) ||
  decide (a = 100 ∧ b &&& 192 = 64) ||
  decide (a = 198 ∧ (b = 18 ∨ b = 19)) ||
  decide (a = 192 ∧ b = 0 ∧ c = 0) ||
  decide (240 ≤ a) ||
  decide (a = 169 ∧ b = 254 ∧ c = 169 ∧ d = 254)

/-- Model of util::is_disallowed_ipv6: addresses convertible to IPv4 are
judged by the IPv4 rules; otherwise loopback, unspecified, multicast,
unique-local, unicast link-local and the documentation block 2001:db8::/32
are disallowed. -/
def is_disallowed_ipv6 (s0 s1 s2 s3 s4 s5 s6 s7 : Nat) : Bool :=
  match v6ToIpv4 s0 s1 s2 s3 s4 s5 s6 s7 with
  | some (a, b, c, d) => is_disallowed_ipv4 a b c d
  | none =>
    decide (s0 = 0 ∧ s1 = 0 ∧ s2 = 0 ∧ s3 = 0 ∧ s4 = 0 ∧ s5 = 0 ∧ s6 = 0 ∧ s7 = 1) ||
    decide (s0 = 0 ∧ s1 = 0 ∧ s2 = 0 ∧ s3 = 0 ∧ s4 = 0 ∧ s5 = 0 ∧ s6 = 0 ∧ s7 = 0) ||
    decide (s0 &&& 65280 = 65280) ||
    decide (s0 &&& 65024 = 64512) ||
    decide (s0 &&& 65472 = 65152) ||
    decide (s0 = 8193 ∧ s1 = 3512)

/-- Dispatch of util::is_disallowed_ip over the two address families. -/
def is_disallowed_ip : IpAddr → Bool
  | .v4 a b c d => is_disallowed_ipv4 a b c d
  | .v6 s0 s1 s2 s3 s4 s5 s6 s7 => is_disallowed_ipv6 s0 s1 s2 s3 s4 s5 s6 s7

/-- Errors of util::validate_remote_url. -/
inductive UrlValidationError where
  | scheme
  | missingHost
  | localhostHost
  | missingPort
  | resolveFailed
  | disallowedAddr
  | noAddr
deriving DecidableEq

/-- Model of util::validate_remote_url.  resolve is the DNS oracle standing
for to_socket_addrs: none is a resolution error, some lists the resolved
addresses (an IP-literal host resolves to itself). -/
def validate_remote_url (u : ParsedUrl) (resolve : Name → Nat → Option (List IpAddr)) :
    Except UrlValidationError Unit :=
  if u.scheme ≠ ("http").data ∧ u.scheme ≠ ("https").data then .error .scheme
  else
    match u.host with
    | none => .error .missingHost
    | some host =>
      if host = ("localhost").data ∨ (("." ++ "localhost").data).isSuffixOf host then
        .error .localhostHost
      else
        match portOrKnownDefault u with
        | none => .error .missingPort
        | some port =>
          match resolve host port with
          | none => .error .resolveFailed
          | some addrs =>
            if addrs.any is_disallowed_ip then .error .disallowedAddr
            else if addrs.isEmpty then .error .noAddr
            else .ok ()

/-- Errors surfaced by Paste::store_remote_file before the HTTP request. -/
inductive RemoteError where
  | badRequest
deriving DecidableEq

/-- Model of the pre-fetch phase of Paste::store_remote_file, exactly as the
source orders it: the body is parsed as a URL (a parse failure is a
BadRequest), a candidate file name is taken from the last non-empty path
segment or the literal name file, and then the GET request for the URL is
issued through the shared client.  A returned ok value (url, name) means the
fetch is issued for url; no validation runs between the parse and the
fetch. -/
def store_remote_file_prefetch (data : Name) : Except RemoteError (ParsedUrl × Name) :=
  match urlParse data with
  | none => .error .badRequest
  | some url =>
    let fileName :=
      match url.pathSegs with
      | some segs =>
        match segs.getLast? with
        | some n => if n = [] then ("file").data else n
        | none => ("file").data
      | none => ("file").data
    .ok (url, fileName)

/-- The file name store_url chooses: the random generated name when one was
produced, else the kind directory name (url or oneshot_url). -/
def storeUrlFileName (t : PT) (cfg : PasteCfg) : Name :=
  match cfg.random_url with
  | some rcfg =>
    match rcfg.generated with
    | some rt => rt
    | none => t.getDir
  | none => t.getDir

/-- Model of Paste::store_url.  The body is parsed as a URL (any scheme); the
file name is the kind directory name, or the generated random name when the
random-URL generator is configured and produced one; an expiry date appends
the timestamp to the on-disk name.  On success the pair (served name, on-disk
name) is returned and the URL text is written to the on-disk name; an error
means nothing was written. -/
def store_url (data : Name) (t : PT) (expiryDate : Option Nat) (cfg : PasteCfg) :
    Except Unit (Name × Name) :=
  match urlParse data with
  | none => .error ()
  | some _ =>
    if singleComponentOk (storeUrlFileName t cfg) then
      .ok (storeUrlFileName t cfg,
        match expiryDate with
        | some ts => storeUrlFileName t cfg ++ '.' :: natDigits ts
        | none => storeUrlFileName t cfg)
    else .error ()

/-- Subdirectory names present in the upload root (created at startup). -/
def subdirNames : List Name := [("oneshot").data, ("url").data, ("oneshot_url").data]

/-- The one-shot consume rename: the resolved on-disk entry p is renamed to
the requested name with the current millisecond time appended. -/
def consume (l : List Name) (p : Name) (file : Name) (now : Nat) : List Name :=
  l.erase p ++ [file ++ '.' :: natDigits now]

/-- Result of the serve handler: a successful response tagged with the
detected paste kind (200 with the bytes for File, RemoteFile and Oneshot, 302
to the stored URL for Url and OneshotUrl), or 404 ("file is not found or
expired"). -/
inductive ServeResult where
  | served (t : PT)
  | notFound
deriving DecidableEq

/-- The kind-detection loop of the serve handler: for each of Url, Oneshot,
OneshotUrl in order, resolve the requested name inside that kind directory
and accept the first whose resolved entry exists, or whose directory name
equals the root-resolved name. -/
def servePickAlt (fs : Fs) (file : Name) (now : Nat) (rootRes : Name) :
    List PT → Option (PT × Name)
  | [] => none
  | t :: rest =>
    if glob_match_file (fs.listing t) file now ∈ fs.listing t ∨ rootRes = t.getDir then
      some (t, glob_match_file (fs.listing t) file now)
    else servePickAlt fs file now rootRes rest

/-- Kind detection of the serve handler: the name is resolved in the upload
root; when the result does not exist as a regular file, or is one of the kind
subdirectories, the detection loop runs (File is kept with the root path when
the loop finds nothing). -/
def serveChoose (fs : Fs) (file : Name) (now : Nat) : PT × Name :=
  if glob_match_file fs.root file now ∉ fs.root ∨
      glob_match_file fs.root file now ∈ subdirNames then
    match servePickAlt fs file now (glob_match_file fs.root file now)
        [PT.url, PT.oneshot, PT.oneshotUrl] with
    | some c => c
    | none => (PT.file, glob_match_file fs.root file now)
  else (PT.file, glob_match_file fs.root file now)

/-- Response dispatch of the serve handler: a 404 unless the chosen entry is
a regular file of its directory; a one-shot artifact (Oneshot or OneshotUrl)
is consumed by the rename before the handler returns. -/
def serveApply (fs : Fs) (file : Name) (now : Nat) (c : PT × Name) : ServeResult × Fs :=
  if c.2 ∈ fs.listing c.1 then
    match c.1 with
    | PT.oneshot =>
      (.served PT.oneshot, { fs with oneshot := consume fs.oneshot c.2 file now })
    | PT.oneshotUrl =>
      (.served PT.oneshotUrl, { fs with oneshotUrl := consume fs.oneshotUrl c.2 file now })
    | t => (.served t, fs)
  else (.notFound, fs)

/-- Model of the serve handler (server.rs): resolve, detect the kind,
dispatch. -/
def serve (fs : Fs) (file : Name) (now : Nat) : ServeResult × Fs :=
  serveApply fs file now (serveChoose fs file now)

/-- Whether a stored entry serves a requested name: it is the name itself, or
a timestamp-suffixed sibling matching the glob pattern of that name. -/
def servesName (file n : Name) : Bool :=
  n == file || matchesTsGlob file n

/-- Whether a stored entry is live at the given time: its extension parses as
a u64 millisecond timestamp strictly in the future. -/
def isLiveAt (n : Name) (now : Nat) : Bool :=
  match (fileExtension n).bind parseU64 with
  | some ts => decide (now < ts)
  | none => false

theorem natDigitsAux_eq (fuel : Nat) : ∀ (n : Nat) (acc : Name), n < fuel →
    natDigitsAux fuel n acc = natDigitsRec n ++ acc := by
  induction fuel with
  | zero => intro n acc h; omega
  | succ fuel ih =>
    intro n acc _h
    by_cases h10 : n < 10
    · rw [natDigitsAux, if_pos h10, natDigitsRec]
      simp [h10]
    · have hdiv : n / 10 < n := Nat.div_lt_self (by omega) (by omega)
      rw [natDigitsAux, if_neg h10, ih (n / 10) _ (by omega)]
      conv_rhs => rw [natDigitsRec]
      simp [h10]

theorem natDigits_eq_rec (n : Nat) : natDigits n = natDigitsRec n := by
  simpa using natDigitsAux_eq (n + 1) n [] (by omega)

theorem digitChar_isDigit (d : Nat) : (digitChar d).isDigit = true := by
  unfold digitChar
  rcases d with _ | _ | _ | _ | _ | _ | _ | _ | _ | _ <;> rfl

theorem digitChar_toNat (d : Nat) (h : d < 10) : (digitChar d).toNat = 48 + d := by
  interval_cases d <;> rfl

theorem digitsVal_append (l : Name) (c : Char) :
    digitsVal (l ++ [c]) = digitsVal l * 10 + (c.toNat - 48) := by
  unfold digitsVal
  rw [List.foldl_append]
  rfl

theorem digitsVal_natDigitsRec (n : Nat) : digitsVal (natDigitsRec n) = n := by
  induction n using Nat.strong_induction_on with
  | _ n ih =>
    rw [natDigitsRec]
    by_cases h10 : n < 10
    · simp only [h10, dite_true]
      show digitsVal [digitChar n] = n
      unfold digitsVal
      simp [digitChar_toNat n h10]
    · have hdiv : n / 10 < n := Nat.div_lt_self (by omega) (by omega)
      simp only [h10, dite_false]
      rw [digitsVal_append, ih (n / 10) hdiv, digitChar_toNat (n % 10) (by omega)]
      omega

theorem natDigitsRec_ne_nil (n : Nat) : natDigitsRec n ≠ [] := by
  rw [natDigitsRec]
  by_cases h10 : n < 10 <;> simp [h10]

theorem natDigitsRec_all_digit (n : Nat) : ∀ c ∈ natDigitsRec n, c.isDigit = true := by
  induction n using Nat.strong_induction_on with
  | _ n ih =>
    rw [natDigitsRec]
    by_cases h10 : n < 10
    · simp [h10, digitChar_isDigit]
    · have hdiv : n / 10 < n := Nat.div_lt_self (by omega) (by omega)
      simp only [h10, dite_false]
      intro c hc
      rcases List.mem_append.mp hc with hc | hc
      · exact ih (n / 10) hdiv c hc
      · simp only [List.mem_singleton] at hc
        rw [hc]
        exact digitChar_isDigit _

theorem isDigit_ne_special (c : Char) (h : c.isDigit = true) :
    c ≠ '+' ∧ c ≠ '.' ∧ c ≠ '/' := by
  refine ⟨?_, ?_, ?_⟩ <;> rintro rfl <;> simp [Char.isDigit] at h

theorem parseU64_natDigits (n : Nat) (h : n < 2 ^ 64) : parseU64 (natDigits n) = some n := by
  rw [natDigits_eq_rec]
  have hall := natDigitsRec_all_digit n
  have hnil := natDigitsRec_ne_nil n
  have hhead : (natDigitsRec n).headD ' ' ≠ '+' := by
    cases hrec : natDigitsRec n with
    | nil => exact absurd hrec hnil
    | cons c cs =>
      have hc : c.isDigit = true := hall c (by rw [hrec]; exact List.mem_cons_self c cs)
      simpa using (isDigit_ne_special c hc).1
  unfold parseU64
  simp only [if_neg hhead]
  rw [if_pos]
  · rw [digitsVal_natDigitsRec]
  · refine ⟨hnil, ?_, ?_⟩
    · exact List.all_eq_true.mpr hall
    · rw [digitsVal_natDigitsRec]; exact h


theorem mem_of_getLast?_eq {α : Type} {l : List α} {a : α} (h : l.getLast? = some a) :
    a ∈ l := by
  induction l with
  | nil => simp at h
  | cons x xs ih =>
    cases xs with
    | nil => simp at h; simp [h]
    | cons y ys =>
      rw [List.getLast?_cons_cons] at h
      exact List.mem_cons_of_mem x (ih h)

theorem tsTail_spec (l : Name)
    (h : (match l with | '.' :: c :: _ => c.isDigit | _ => false) = true) :
    ∃ c rest, l = '.' :: c :: rest ∧ c.isDigit = true := by
  split at h
  · exact ⟨_, _, rfl, h⟩
  · exact absurd h (by simp)

theorem matchesTsGlob_spec {stem n : Name} (h : matchesTsGlob stem n = true) :
    ∃ c rest, n = stem ++ '.' :: c :: rest ∧ c.isDigit = true := by
  unfold matchesTsGlob at h
  rw [Bool.and_eq_true] at h
  obtain ⟨h1, h2⟩ := h
  rw [ List.isPrefixOf_iff_prefix] at h1
  obtain ⟨t, ht⟩ := h1
  rw [← ht, List.drop_left] at h2
  obtain ⟨c, rest, heqt, hc⟩ := tsTail_spec t h2
  exact ⟨c, rest, by rw [← ht, heqt], hc⟩

theorem matchesTsGlob_intro (stem : Name) (c : Char) (rest : Name) (hc : c.isDigit = true) :
    matchesTsGlob stem (stem ++ '.' :: c :: rest) = true := by
  unfold matchesTsGlob
  rw [Bool.and_eq_true]
  refine ⟨?_, ?_⟩
  · rw [ List.isPrefixOf_iff_prefix]
    exact ⟨'.' :: c :: rest, rfl⟩
  · rw [List.drop_left]
    exact hc

theorem matchesTsGlob_length {stem n : Name} (h : matchesTsGlob stem n = true) :
    stem.length + 2 ≤ n.length := by
  obtain ⟨c, rest, heq, -⟩ := matchesTsGlob_spec h
  rw [heq]
  simp [List.length_append]

theorem matchesTsGlob_ne {stem n : Name} (h : matchesTsGlob stem n = true) : n ≠ stem := by
  intro he
  have := matchesTsGlob_length h
  rw [he] at this
  omega

theorem glob_match_file_eq_of_getLast {dir : List Name} {path : Name} {now : Nat} {m : Name}
    (hl : (dir.filter fun n => matchesTsGlob (stripTimestampSuffix path) n).getLast? = some m) :
    glob_match_file dir path now =
      match (fileExtension m).bind parseU64 with
      | some ts => if now < ts then m else stripTimestampSuffix path
      | none => stripTimestampSuffix path := by
  unfold glob_match_file
  rw [hl]

theorem glob_match_file_cases (dir : List Name) (path : Name) (now : Nat) :
    glob_match_file dir path now = stripTimestampSuffix path ∨
    (glob_match_file dir path now ∈ dir ∧
      matchesTsGlob (stripTimestampSuffix path) (glob_match_file dir path now) = true) := by
  cases hl : (dir.filter fun n => matchesTsGlob (stripTimestampSuffix path) n).getLast? with
  | none =>
    left
    unfold glob_match_file
    rw [hl]
  | some m =>
    have hg := @glob_match_file_eq_of_getLast dir path now m hl
    have hm := List.mem_filter.mp (mem_of_getLast?_eq hl)
    cases hp : (fileExtension m).bind parseU64 with
    | none =>
      left
      rw [hg, hp]
    | some ts =>
      by_cases hlt : now < ts
      · right
        rw [hg, hp]
        show (if now < ts then m else stripTimestampSuffix path) ∈ dir ∧
          matchesTsGlob (stripTimestampSuffix path)
            (if now < ts then m else stripTimestampSuffix path) = true
        rw [if_pos hlt]
        exact ⟨hm.1, hm.2⟩
      · left
        rw [hg, hp]
        show (if now < ts then m else stripTimestampSuffix path) = stripTimestampSuffix path
        rw [if_neg hlt]

theorem glob_match_file_of_no_match (dir : List Name) (path : Name) (now : Nat)
    (h : ∀ n ∈ dir, matchesTsGlob (stripTimestampSuffix path) n = false) :
    glob_match_file dir path now = stripTimestampSuffix path := by
  have hnil : dir.filter (fun n => matchesTsGlob (stripTimestampSuffix path) n) = [] := by
    rw [List.filter_eq_nil_iff]
    intro a ha
    simp [h a ha]
  unfold glob_match_file
  rw [hnil]
  rfl

theorem find?_of_filter_nil {α : Type} (l : List α) (p q : α → Bool)
    (hq : ∀ a, q a = true → p a = true) (h : l.filter p = []) : l.find? q = none := by
  rw [List.find?_eq_none]
  intro x hx hqx
  have hpx := hq x hqx
  have hmem : x ∈ l.filter p := List.mem_filter.mpr ⟨hx, hpx⟩
  rw [h] at hmem
  simp at hmem

theorem find?_of_filter_singleton {α : Type} (l : List α) (p q : α → Bool) (m : α)
    (hq : ∀ a, q a = true → p a = true) (h : l.filter p = [m]) :
    l.find? q = if q m then some m else none := by
  induction l with
  | nil => simp at h
  | cons x xs ih =>
    by_cases hpx : p x = true
    · rw [List.filter_cons_of_pos hpx] at h
      have hx : x = m := ((List.cons.injEq _ _ _ _).mp h).1
      have hxs : xs.filter p = [] := ((List.cons.injEq _ _ _ _).mp h).2
      subst hx
      by_cases hqx : q x = true
      · rw [List.find?_cons_of_pos xs hqx, if_pos hqx]
      · rw [List.find?_cons_of_neg xs hqx, if_neg hqx,
          find?_of_filter_nil xs p q hq hxs]
    · rw [List.filter_cons_of_neg (by simp [hpx])] at h
      have hqx : ¬ q x = true := fun hqx => hpx (hq x hqx)
      rw [List.find?_cons_of_neg xs hqx]
      exact ih h

theorem glob_match_file_resolution_general (dir : List Name) (path : Name) (now : Nat)
    (huniq : (dir.filter fun n => matchesTsGlob (stripTimestampSuffix path) n).length ≤ 1) :
    glob_match_file dir path now =
      match dir.find?
          (fun n => matchesTsGlob (stripTimestampSuffix path) n && isLiveAt n now) with
      | some m => m
      | none => stripTimestampSuffix path := by
  have hq : ∀ a, (matchesTsGlob (stripTimestampSuffix path) a && isLiveAt a now) = true →
      matchesTsGlob (stripTimestampSuffix path) a = true := by
    intro a ha
    exact ((Bool.and_eq_true _ _) ▸ ha).1
  cases hf : dir.filter (fun n => matchesTsGlob (stripTimestampSuffix path) n) with
  | nil =>
    rw [find?_of_filter_nil dir _ _ hq hf]
    exact glob_match_file_of_no_match dir path now (fun n hn => by
      by_contra hc
      have hmem : n ∈ dir.filter (fun n => matchesTsGlob (stripTimestampSuffix path) n) :=
        List.mem_filter.mpr ⟨hn, by simpa using hc⟩
      rw [hf] at hmem
      simp at hmem)
  | cons m t =>
    cases t with
    | cons b t2 =>
      rw [hf] at huniq
      simp at huniq
    | nil =>
      have hm := List.mem_filter.mp (by rw [hf]; exact List.mem_singleton_self m)
      have hg := @glob_match_file_eq_of_getLast dir path now m
        (by rw [hf]; exact List.getLast?_singleton m)
      rw [find?_of_filter_singleton dir _ _ m hq hf, hg]
      cases hp : (fileExtension m).bind parseU64 with
      | none =>
        have hlive : isLiveAt m now = false := by simp [isLiveAt, hp]
        rw [if_neg (by simp [hlive])]
      | some ts =>
        by_cases hlt : now < ts
        · have hlive : isLiveAt m now = true := by simp [isLiveAt, hp, hlt]
          rw [if_pos (by simp [hm.2, hlive])]
          show (if now < ts then m else stripTimestampSuffix path) = m
          rw [if_pos hlt]
        · have hlive : isLiveAt m now = false := by simp [isLiveAt, hp, hlt]
          rw [if_neg (by simp [hlive])]
          show (if now < ts then m else stripTimestampSuffix path) = stripTimestampSuffix path
          rw [if_neg hlt]

/-- C3: glob_match_file first strips one trailing timestamp-suffix match from
the path, then globs for a digit-extension sibling; for a name with no
timestamp suffix and at most one glob sibling in the directory, the result is
the sibling exactly when it exists, its digit suffix parses as a u64 number
of milliseconds, and the current time is strictly below it; in every other
case the result is the stripped path. -/
theorem glob_match_file_timestamp_resolution (dir : List Name) (name : Name) (now : Nat)
    (hname : stripTimestampSuffix name = name)
    (huniq : (dir.filter fun n => matchesTsGlob name n).length ≤ 1) :
    glob_match_file dir name now =
      match dir.find? (fun n => matchesTsGlob name n && isLiveAt n now) with
      | some m => m
      | none => name := by
  have h := glob_match_file_resolution_general dir name now (by rw [hname]; exact huniq)
  rw [hname] at h
  exact h

/-- C3 witness: a directory holding one unexpired timestamp-suffixed sibling
resolves to that sibling. -/
theorem glob_match_file_timestamp_resolution_witness :
    stripTimestampSuffix (("expired.file1").data) = ("expired.file1").data ∧
    ([(("expired.file1.99999999999999").data)].filter fun n =>
      matchesTsGlob (("expired.file1").data) n).length ≤ 1 ∧
    glob_match_file [(("expired.file1.99999999999999").data)] (("expired.file1").data) 1000 =
      ("expired.file1.99999999999999").data := by
  refine ⟨by decide, by decide, ?_⟩
  rw [glob_match_file_timestamp_resolution _ _ _ (by decide) (by decide)]
  decide

theorem expiredPred_iff (n : Name) (now : Nat) :
    (match (fileExtension n).bind parseU64 with
      | some ts => decide (ts < now)
      | none => false) = true ↔
    ∃ ts, (fileExtension n).bind parseU64 = some ts ∧ ts < now := by
  cases h : (fileExtension n).bind parseU64 <;> simp [h]

/-- C9: get_expired_files returns exactly the entries of the upload root and
of the oneshot, url and oneshot_url directories whose name matches the glob
*.[0-9]* and whose final extension parses as a millisecond timestamp strictly
below the current time; unparseable suffixes and future timestamps are never
returned. -/
theorem get_expired_files_characterization (fs : Fs) (now : Nat) (t : PT) (n : Name) :
    (t, n) ∈ get_expired_files fs now ↔
      (t = PT.file ∨ t = PT.oneshot ∨ t = PT.url ∨ t = PT.oneshotUrl) ∧
      n ∈ fs.listing t ∧ matchesExpiryGlob n = true ∧
      ∃ ts, (fileExtension n).bind parseU64 = some ts ∧ ts < now := by
  unfold get_expired_files
  rw [List.mem_flatMap]
  constructor
  · rintro ⟨t', ht', hmem⟩
    rw [List.mem_map] at hmem
    obtain ⟨n', hn', heq⟩ := hmem
    obtain ⟨heq1, heq2⟩ := Prod.mk.injEq _ _ _ _ ▸ heq
    subst heq1
    subst heq2
    rw [List.mem_filter] at hn'
    obtain ⟨hn'', hpred⟩ := hn'
    rw [List.mem_filter] at hn''
    refine ⟨?_, hn''.1, hn''.2, (expiredPred_iff _ _).mp hpred⟩
    simp only [List.mem_cons, List.not_mem_nil, or_false] at ht'
    tauto
  · rintro ⟨hkind, hmem, hglob, hts⟩
    refine ⟨t, ?_, ?_⟩
    · simp only [List.mem_cons, List.not_mem_nil, or_false]
      tauto
    · rw [List.mem_map]
      refine ⟨n, ?_, rfl⟩
      rw [List.mem_filter]
      exact ⟨List.mem_filter.mpr ⟨hmem, hglob⟩, (expiredPred_iff _ _).mpr hts⟩

/-- C10: the content-length limiter rejects a request with 413 before the
inner handler runs exactly when the Content-Length header is present, parses,
and exceeds the configured maximum; requests with an absent or unparseable
header are forwarded with no size check. -/
theorem content_length_limiter_characterization (cl : Option Name) (maxBytes : Nat) :
    (content_length_limiter cl maxBytes = .rejected ↔
      ∃ s n, cl = some s ∧ parseByte s = some n ∧ maxBytes < n) ∧
    (content_length_limiter cl maxBytes = .rejected ∨
      content_length_limiter cl maxBytes = .forwarded) := by
  refine ⟨?_, ?_⟩
  · cases cl with
    | none => simp [content_length_limiter]
    | some s =>
      cases h : parseByte s with
      | none => simp [content_length_limiter, h]
      | some n =>
        by_cases hlt : maxBytes < n
        · simp [content_length_limiter, h, hlt]
        · simp [content_length_limiter, h, hlt]
  · unfold content_length_limiter
    cases cl.bind parseByte with
    | none => right; rfl
    | some n =>
      by_cases hlt : maxBytes < n
      · left
        show (if maxBytes < n then LimiterOutcome.rejected else LimiterOutcome.forwarded) = _
        rw [if_pos hlt]
      · right
        show (if maxBytes < n then LimiterOutcome.rejected else LimiterOutcome.forwarded) = _
        rw [if_neg hlt]

/-- C5 (amended): the upload-handler dedup guard holds exactly when the paste
kind is File or Url (the source excludes only Oneshot, RemoteFile and
OneshotUrl), no expiry date is set, and duplicate_files is configured to
false; when the short-circuit fires it returns the existing file found by the
digest lookup and the handler writes nothing new. -/
theorem upload_dedup_condition_characterization (t : PT) (e : Option Nat) (d : Option Bool)
    (files : List (Name × Name)) (digest : Name) :
    (dedup_check_applies t e d = true ↔ (t = PT.file ∨ t = PT.url) ∧ e = none ∧ d = some false) ∧
    (∀ nm, upload_dedup_shortcut t e d files digest = some nm →
      dedup_check_applies t e d = true ∧ directory_get_file files digest = some nm) := by
  constructor
  · cases t <;> rcases e with _ | e <;> rcases d with _ | (_ | _) <;>
      simp [dedup_check_applies]
  · intro nm h
    by_cases hc : dedup_check_applies t e d = true
    · refine ⟨hc, ?_⟩
      rw [upload_dedup_shortcut, if_pos hc] at h
      exact h
    · rw [upload_dedup_shortcut, if_neg hc] at h
      simp at h

/-- C5 counterexample: with duplicate_files set to false and no expiry date
the dedup guard also holds for the Url kind and the short-circuit returns the
digest match, contradicting the claim that the dedup applies only to kind
File. -/
theorem upload_dedup_applies_to_url_kind :
    dedup_check_applies PT.url none (some false) = true ∧
    upload_dedup_shortcut PT.url none (some false)
      [((("u").data), (("d").data))] (("d").data) = some (("u").data) := by
  constructor <;> decide

theorem cleanSegs_concat (abs : Bool) (l : List PComp) (c : PComp) :
    cleanSegs abs (l ++ [c]) = cleanStep abs (cleanSegs abs l) c := by
  unfold cleanSegs
  rw [List.foldl_append]
  rfl

theorem cleanStep_up_eq (abs : Bool) (out : List PComp) :
    cleanStep abs out PComp.up =
      match out.getLast? with
      | some (.normal _) => out.dropLast
      | some .up => out ++ [.up]
      | some .cur => out ++ [.up]
      | none => if abs then out else out ++ [.up] := rfl

theorem cleanStep_up_canonical (abs : Bool) (k : Nat) (ns : List Name)
    (habs : abs = true → k = 0) :
    ∃ (k2 : Nat) (ns2 : List Name), cleanStep abs (List.replicate k PComp.up ++ ns.map PComp.normal) PComp.up =
      List.replicate k2 PComp.up ++ ns2.map PComp.normal ∧ (abs = true → k2 = 0) := by
  induction ns using List.reverseRecOn with
  | nil =>
    simp only [List.map_nil, List.append_nil]
    cases k with
    | zero =>
      cases habs0 : abs with
      | true => exact ⟨0, [], rfl, fun _ => rfl⟩
      | false =>
        refine ⟨1, [], rfl, fun h => ?_⟩
        exact absurd h (by simp)
    | succ k' =>
      refine ⟨k' + 2, [], ?_, fun h => absurd (habs h) (by omega)⟩
      rw [cleanStep_up_eq, List.replicate_succ' k' PComp.up, List.getLast?_concat]
      show (List.replicate k' PComp.up ++ [PComp.up]) ++ [PComp.up] = _
      rw [← List.replicate_succ' k' PComp.up, ← List.replicate_succ' (k' + 1) PComp.up]
      simp
  | append_singleton ns0 s _ =>
    refine ⟨k, ns0, ?_, habs⟩
    have harr : List.replicate k PComp.up ++ (ns0 ++ [s]).map PComp.normal =
        (List.replicate k PComp.up ++ ns0.map PComp.normal) ++ [PComp.normal s] := by
      rw [List.map_append]
      simp [List.append_assoc]
    rw [harr, cleanStep_up_eq, List.getLast?_concat]
    show ((List.replicate k PComp.up ++ ns0.map PComp.normal) ++ [PComp.normal s]).dropLast =
      List.replicate k PComp.up ++ ns0.map PComp.normal
    rw [List.dropLast_concat]

theorem cleanSegs_canonical (abs : Bool) (l : List PComp) :
    ∃ (k : Nat) (ns : List Name), cleanSegs abs l = List.replicate k PComp.up ++ ns.map PComp.normal ∧
      (abs = true → k = 0) := by
  induction l using List.reverseRecOn with
  | nil => exact ⟨0, [], rfl, fun _ => rfl⟩
  | append_singleton l c ih =>
    obtain ⟨k, ns, heq, habs⟩ := ih
    rw [cleanSegs_concat, heq]
    cases c with
    | cur => exact ⟨k, ns, rfl, habs⟩
    | normal s =>
      refine ⟨k, ns ++ [s], ?_, habs⟩
      show (List.replicate k PComp.up ++ ns.map PComp.normal) ++ [PComp.normal s] = _
      rw [List.map_append, List.append_assoc]
      rfl
    | up => exact cleanStep_up_canonical abs k ns habs

theorem foldl_cleanStep_normals (abs : Bool) (ns : List Name) :
    ∀ out, List.foldl (cleanStep abs) out (ns.map PComp.normal) = out ++ ns.map PComp.normal := by
  induction ns with
  | nil => intro out; simp
  | cons s t ih =>
    intro out
    simp only [List.map_cons, List.foldl_cons]
    rw [ih]
    show (out ++ [PComp.normal s]) ++ t.map PComp.normal = _
    simp

theorem foldl_cleanStep_ups (k : Nat) :
    ∀ j, List.foldl (cleanStep false) (List.replicate j PComp.up) (List.replicate k PComp.up) =
      List.replicate (j + k) PComp.up := by
  induction k with
  | zero => intro j; simp
  | succ k ih =>
    intro j
    rw [List.replicate_succ, List.foldl_cons]
    have hstep : cleanStep false (List.replicate j PComp.up) PComp.up =
        List.replicate (j + 1) PComp.up := by
      rw [cleanStep_up_eq]
      cases j with
      | zero => rfl
      | succ j' =>
        rw [List.replicate_succ' j' PComp.up, List.getLast?_concat]
        show (List.replicate j' PComp.up ++ [PComp.up]) ++ [PComp.up] = _
        rw [← List.replicate_succ' j' PComp.up, ← List.replicate_succ' (j' + 1) PComp.up]
    rw [hstep, ih (j + 1)]
    congr 1
    omega

theorem cleanSegs_canonical_id (abs : Bool) (k : Nat) (ns : List Name)
    (habs : abs = true → k = 0) :
    cleanSegs abs (List.replicate k PComp.up ++ ns.map PComp.normal) =
      List.replicate k PComp.up ++ ns.map PComp.normal := by
  unfold cleanSegs
  rw [List.foldl_append]
  cases habs0 : abs with
  | true =>
    have hk : k = 0 := habs habs0
    subst hk
    simp only [List.replicate, List.foldl_nil, List.nil_append]
    exact foldl_cleanStep_normals true ns []
  | false =>
    have h1 : List.foldl (cleanStep false) [] (List.replicate k PComp.up) =
        List.replicate k PComp.up := by
      have h0 := foldl_cleanStep_ups k 0
      simpa using h0
    rw [h1]
    exact foldl_cleanStep_normals false ns _

theorem cleanSegs_idem (abs : Bool) (l : List PComp) :
    cleanSegs abs (cleanSegs abs l) = cleanSegs abs l := by
  obtain ⟨k, ns, heq, habs⟩ := cleanSegs_canonical abs l
  rw [heq, cleanSegs_canonical_id abs k ns habs]

theorem clean_idem (p : MPath) : clean (clean p) = clean p := by
  unfold clean
  simp only [cleanSegs_idem]

theorem isPrefixOf_append_self {α : Type} [BEq α] [LawfulBEq α] (l t : List α) :
    l.isPrefixOf (l ++ t) = true := by
  rw [ List.isPrefixOf_iff_prefix]
  exact ⟨t, rfl⟩

/-- C2 (amended): safe_path_join either fails or returns a path that, after
lexical normalization, has the normalized base as a component prefix; an
absolute or parent-escaping part is rejected exactly when the normalized join
leaves the base, so an absolute part that already lies under the base is
accepted rather than rejected. -/
theorem safe_path_join_stays_under_base (base part p : MPath)
    (h : safe_path_join base part = .ok p) :
    (cleanedComps (clean base)).isPrefixOf (cleanedComps (clean p)) = true := by
  unfold safe_path_join at h
  set joined : MPath := if part.abs then part else ⟨base.abs, base.segs ++ part.segs⟩ with hj
  by_cases hc :
      (cleanedComps (clean base)).isPrefixOf (cleanedComps (clean joined)) = true
  · rw [if_pos hc] at h
    have hp : p = clean joined := (Except.ok.injEq _ _ ▸ h.symm)
    rw [hp, clean_idem]
    exact hc
  · rw [if_neg hc] at h
    exact Except.noConfusion h

/-- C2 witness: joining a relative single component under an absolute base
succeeds and the result stays under the base. -/
theorem safe_path_join_stays_under_base_witness :
    safe_path_join ⟨true, [PComp.normal (("foo").data)]⟩
        ⟨false, [PComp.normal (("bar").data)]⟩ =
      .ok ⟨true, [PComp.normal (("foo").data), PComp.normal (("bar").data)]⟩ ∧
    (cleanedComps (clean ⟨true, [PComp.normal (("foo").data)]⟩)).isPrefixOf
      (cleanedComps
        (clean ⟨true, [PComp.normal (("foo").data), PComp.normal (("bar").data)]⟩)) = true := by
  refine ⟨by decide, ?_⟩
  exact safe_path_join_stays_under_base ⟨true, [PComp.normal (("foo").data)]⟩
    ⟨false, [PComp.normal (("bar").data)]⟩
    ⟨true, [PComp.normal (("foo").data), PComp.normal (("bar").data)]⟩ (by decide)

/-- C2 counterexample: an absolute part is not rejected when its normalized
form already lies under the base; safe_path_join of the base slash-foo with
the absolute part slash-foo-bar succeeds, refuting the clause that absolute
parts are rejected. -/
theorem safe_path_join_accepts_absolute_part :
    safe_path_join ⟨true, [PComp.normal (("foo").data)]⟩
        ⟨true, [PComp.normal (("foo").data), PComp.normal (("bar").data)]⟩ =
      .ok ⟨true, [PComp.normal (("foo").data), PComp.normal (("bar").data)]⟩ := by
  decide

theorem safe_path_join_single_component (base : MPath) (s : Name) (habs : base.abs = true) :
    safe_path_join base ⟨false, [PComp.normal s]⟩ =
      .ok ⟨true, cleanSegs true base.segs ++ [PComp.normal s]⟩ := by
  obtain ⟨b, segs⟩ := base
  simp only at habs
  subst habs
  unfold safe_path_join
  simp only [if_neg (by simp : ¬ (MPath.abs ⟨false, [PComp.normal s]⟩ = true))]
  have hjoin : clean ⟨true, segs ++ [PComp.normal s]⟩ =
      ⟨true, cleanSegs true segs ++ [PComp.normal s]⟩ := by
    unfold clean
    simp only [MPath.mk.injEq, true_and]
    rw [cleanSegs_concat]
    rfl
  have hbase : clean ⟨true, segs⟩ = ⟨true, cleanSegs true segs⟩ := rfl
  rw [hjoin, hbase]
  rw [if_pos]
  unfold cleanedComps
  simp only
  rw [List.map_append]
  exact isPrefixOf_append_self _ _

/-- C4: when the synthesized final name resolves through the timestamp-suffix
glob to an existing live file of the directory, store_file fails with
Conflict (surfaced as HTTP 409 with body "file already exists" and a newline)
and writes nothing; when the only sibling with that name carries an
already-expired timestamp suffix the upload is not blocked and succeeds. -/
theorem store_file_collision_semantics :
    (∀ (fileName : Name) (expiryDate : Option Nat) (headerFilename : Option Name)
      (cfg : PasteCfg) (fileType : Option Sniffed) (dir : List Name) (now : Nat),
      mimeBlacklisted cfg fileType = false →
      singleComponentOk (storeFn1 fileName cfg) = true →
      glob_match_file dir (storeFinalName fileName headerFilename cfg fileType) now ∈ dir →
      store_file fileName expiryDate headerFilename cfg fileType dir now = .error .conflict) ∧
    (∀ (fileName : Name) (expiryDate : Option Nat) (headerFilename : Option Name)
      (cfg : PasteCfg) (fileType : Option Sniffed) (now : Nat) (sfx : Name) (ts : Nat),
      mimeBlacklisted cfg fileType = false →
      singleComponentOk (storeFn1 fileName cfg) = true →
      stripTimestampSuffix (storeFinalName fileName headerFilename cfg fileType) =
        storeFinalName fileName headerFilename cfg fileType →
      matchesTsGlob (storeFinalName fileName headerFilename cfg fileType)
        (storeFinalName fileName headerFilename cfg fileType ++ '.' :: sfx) = true →
      (fileExtension
        (storeFinalName fileName headerFilename cfg fileType ++ '.' :: sfx)).bind parseU64 =
        some ts →
      ts ≤ now →
      ∃ disk, store_file fileName expiryDate headerFilename cfg fileType
        [storeFinalName fileName headerFilename cfg fileType ++ '.' :: sfx] now =
        .ok (storeFinalName fileName headerFilename cfg fileType, disk)) := by
  constructor
  · intro fileName e hf cfg ft dir now hm hok hres
    unfold store_file
    rw [if_neg (by simp [hm]), if_pos hok, if_pos hres]
  · intro fileName e hf cfg ft now sfx ts hm hok hstrip hmatch hparse hle
    set fin := storeFinalName fileName hf cfg ft with hfin
    have hfilter : ([fin ++ '.' :: sfx].filter fun n =>
        matchesTsGlob (stripTimestampSuffix fin) n) = [fin ++ '.' :: sfx] := by
      rw [hstrip]
      simp [hmatch]
    have hglob : glob_match_file [fin ++ '.' :: sfx] fin now = fin := by
      have hg := @glob_match_file_eq_of_getLast [fin ++ '.' :: sfx] fin now
        (fin ++ '.' :: sfx) (by rw [hfilter]; exact List.getLast?_singleton _)
      rw [hg, hparse]
      show (if now < ts then fin ++ '.' :: sfx else stripTimestampSuffix fin) = fin
      rw [if_neg (by omega), hstrip]
    have hnotmem : fin ∉ [fin ++ '.' :: sfx] := by
      simp only [List.mem_singleton]
      intro he
      have hl := congrArg List.length he
      simp [List.length_append] at hl
    refine ⟨(match e with
      | some ts2 => storeFinalName fileName hf cfg ft ++ '.' :: natDigits ts2
      | none => storeFinalName fileName hf cfg ft), ?_⟩
    unfold store_file
    rw [if_neg (by simp [hm]), if_pos hok, if_neg (by rw [← hfin, hglob]; exact hnotmem)]

/-- C4 witness: a live same-name file causes Conflict; a directory holding
only an expired sibling lets the upload through. -/
theorem store_file_collision_semantics_witness :
    store_file (("t.txt").data) none none ⟨[], ("txt").data, none, none⟩ none
      [(("t.txt").data)] 0 = .error .conflict ∧
    ∃ disk, store_file (("t.txt").data) none none ⟨[], ("txt").data, none, none⟩ none
      [(("t.txt.1000").data)] 99999999 =
      .ok (storeFinalName (("t.txt").data) none ⟨[], ("txt").data, none, none⟩ none, disk) := by
  constructor
  · exact store_file_collision_semantics.1 (("t.txt").data) none none
      ⟨[], ("txt").data, none, none⟩ none [(("t.txt").data)] 0
      (by decide) (by decide) (by decide)
  · exact store_file_collision_semantics.2 (("t.txt").data) none none
      ⟨[], ("txt").data, none, none⟩ none 99999999 (("1000").data) 1000
      (by decide) (by decide) (by decide) (by decide) (by decide) (by omega)

/-- C6 (amended): a successful store_file call with an expiry date present
stores under the final name with the millisecond timestamp appended after a
dot, while the returned served name is the final name without that suffix;
the expiry suffix is never part of the served name, but the served name
itself may still match the timestamp-suffix regex when the synthesized name
ends in an all-digit extension of ten or more digits (see the
counterexample). -/
theorem store_file_expiry_suffix_split (fileName : Name) (ts : Nat)
    (headerFilename : Option Name) (cfg : PasteCfg) (fileType : Option Sniffed)
    (dir : List Name) (now : Nat) (served disk : Name)
    (h : store_file fileName (some ts) headerFilename cfg fileType dir now =
      .ok (served, disk)) :
    served = storeFinalName fileName headerFilename cfg fileType ∧
    disk = served ++ '.' :: natDigits ts := by
  unfold store_file at h
  split at h
  · exact Except.noConfusion h
  · split at h
    · split at h
      · exact Except.noConfusion h
      · rw [Except.ok.injEq, Prod.mk.injEq] at h
        obtain ⟨hs, hd⟩ := h
        refine ⟨hs.symm, ?_⟩
        rw [← hd, ← hs]
    · exact Except.noConfusion h

/-- C6 witness: a plain upload with an expiry date yields a suffixed on-disk
name and an unsuffixed served name. -/
theorem store_file_expiry_suffix_split_witness :
    store_file (("x.txt").data) (some 1700000000000) none
      ⟨[], ("txt").data, none, none⟩ none [] 0 =
      .ok ((("x.txt").data), ("x.txt").data ++ '.' :: natDigits 1700000000000) ∧
    (("x.txt").data) = storeFinalName (("x.txt").data) none
      ⟨[], ("txt").data, none, none⟩ none ∧
    ("x.txt").data ++ '.' :: natDigits 1700000000000 =
      (("x.txt").data) ++ '.' :: natDigits 1700000000000 := by
  refine ⟨by decide, ?_⟩
  exact store_file_expiry_suffix_split (("x.txt").data) 1700000000000 none
    ⟨[], ("txt").data, none, none⟩ none [] 0 (("x.txt").data)
    (("x.txt").data ++ '.' :: natDigits 1700000000000) (by decide)

/-- C6 counterexample: an uploaded name whose own extension is eleven digits
produces a served name that matches the timestamp-suffix regex, refuting the
clause that the served name never matches it. -/
theorem store_file_served_name_can_match_timestamp_regex :
    store_file (("foo.12345678901").data) (some 99999999999999) none
      ⟨[], ("txt").data, none, none⟩ none [] 0 =
      .ok ((("foo.12345678901").data), (("foo.12345678901.99999999999999").data)) ∧
    hasTimestampSuffix (("foo.12345678901").data) = true := by
  constructor <;> decide

/-- C1: the SSRF guard exists but is dead code.  validate_remote_url rejects
the loopback URL (its resolver returns 127.0.0.1, a disallowed address), yet
the pre-fetch phase of store_remote_file accepts the very same input and
issues the GET request: no validation runs between the URL parse and the
fetch, so the claimed rejection without an HTTP fetch does not happen. -/
theorem ssrf_validation_not_invoked_on_loopback :
    ∃ u, urlParse (("http://127.0.0.1/x").data) = some u ∧
      store_remote_file_prefetch (("http://127.0.0.1/x").data) = .ok (u, (("x").data)) ∧
      validate_remote_url u (fun _ _ => some [IpAddr.v4 127 0 0 1]) =
        .error .disallowedAddr := by
  refine ⟨⟨("http").data, some (("127.0.0.1").data), none, some [(("x").data)]⟩,
    ?_, ?_, ?_⟩ <;> decide

/-- C8 (amended): store_url succeeds exactly on inputs that parse as
absolute URLs — of any scheme, since no scheme restriction is applied — and
rejects every input the URL parser rejects (relative strings such as
testurl.com) without writing anything; the name guard is the safe join of
the chosen file name. -/
theorem store_url_parse_characterization (data : Name) (t : PT) (e : Option Nat)
    (cfg : PasteCfg)
    (hname : singleComponentOk (storeUrlFileName t cfg) = true) :
    (urlParse data = none → store_url data t e cfg = .error ()) ∧
    (∀ u, urlParse data = some u → ∃ r, store_url data t e cfg = .ok r) := by
  constructor
  · intro h
    unfold store_url
    rw [h]
  · intro u h
    have hu : store_url data t e cfg =
        if singleComponentOk (storeUrlFileName t cfg) then
          .ok (storeUrlFileName t cfg,
            match e with
            | some ts => storeUrlFileName t cfg ++ '.' :: natDigits ts
            | none => storeUrlFileName t cfg)
        else .error () := by
      unfold store_url
      rw [h]
    rw [hu, if_pos hname]
    exact ⟨_, rfl⟩

/-- C8 witness: the relative string testurl.com is rejected and an absolute
https URL is stored. -/
theorem store_url_parse_characterization_witness :
    singleComponentOk (storeUrlFileName PT.url ⟨[], [], none, none⟩) = true ∧
    store_url (("testurl.com").data) PT.url none ⟨[], [], none, none⟩ = .error () ∧
    ∃ r, store_url (("https://example.org/").data) PT.url none ⟨[], [], none, none⟩ =
      .ok r := by
  refine ⟨by decide, ?_, ?_⟩
  · exact (store_url_parse_characterization (("testurl.com").data) PT.url none
      ⟨[], [], none, none⟩ (by decide)).1 (by decide)
  · exact (store_url_parse_characterization (("https://example.org/").data) PT.url none
      ⟨[], [], none, none⟩ (by decide)).2
      ⟨("https").data, some (("example.org").data), none, some [[]]⟩ (by decide)

/-- C8 counterexample: an ftp URL parses as an absolute URL and store_url
accepts and stores it, refuting the claim that store_url succeeds only on
http or https URLs. -/
theorem store_url_accepts_ftp_scheme :
    store_url (("ftp://example.org/x").data) PT.url none ⟨[], [], none, none⟩ =
      .ok ((("url").data), (("url").data)) := by
  decide

theorem takeWhile_all_append (p : Char → Bool) (l r : List Char)
    (hl : ∀ c ∈ l, p c = true) :
    (l ++ r).takeWhile p = l ++ r.takeWhile p := by
  induction l with
  | nil => simp
  | cons c t ih =>
    have hc := hl c (List.mem_cons_self c t)
    rw [List.cons_append, List.takeWhile_cons, hc, if_pos rfl,
      ih (fun x hx => hl x (List.mem_cons_of_mem c hx)), List.cons_append]

theorem fileExtension_append_digits (file d : Name) (hf : file ≠ []) (hd : d ≠ [])
    (hdig : ∀ c ∈ d, c.isDigit = true) :
    fileExtension (file ++ '.' :: d) = some d := by
  have hext : extSuffix (file ++ '.' :: d) = d := by
    unfold extSuffix
    rw [List.reverse_append, List.reverse_cons, List.append_assoc]
    rw [takeWhile_all_append _ d.reverse (['.'] ++ file.reverse) (fun c hc => by
      have hcd := hdig c (List.mem_reverse.mp hc)
      have hne := (isDigit_ne_special c hcd).2.1
      simp [hne])]
    simp
  have hfl : 0 < file.length := List.length_pos.mpr hf
  have hdl : 0 < d.length := List.length_pos.mpr hd
  have h1 : file ++ '.' :: d ≠ ['.', '.'] := by
    intro he
    have hlen := congrArg List.length he
    simp [List.length_append] at hlen
    omega
  have h2 : ¬((extSuffix (file ++ '.' :: d)).length = (file ++ '.' :: d).length) := by
    rw [hext]
    simp only [List.length_append, List.length_cons]
    omega
  have h3 : ¬((extSuffix (file ++ '.' :: d)).length + 1 = (file ++ '.' :: d).length) := by
    rw [hext]
    simp only [List.length_append, List.length_cons]
    omega
  unfold fileExtension
  rw [if_neg h1, if_neg h2, if_neg h3, hext]

theorem servesName_of_glob (dir : List Name) (file : Name) (now : Nat)
    (hstrip : stripTimestampSuffix file = file) :
    servesName file (glob_match_file dir file now) = true := by
  rcases glob_match_file_cases dir file now with h | ⟨-, h2⟩
  · rw [h, hstrip]
    simp [servesName]
  · rw [hstrip] at h2
    simp [servesName, h2]

theorem resolve_no_serving (L : List Name) (file : Name) (now : Nat)
    (hstrip : stripTimestampSuffix file = file)
    (h : ∀ n ∈ L, servesName file n = false) :
    glob_match_file L file now = file ∧ file ∉ L := by
  have hpred : ∀ n ∈ L, matchesTsGlob (stripTimestampSuffix file) n = false := by
    intro n hn
    by_contra hc
    have hmt : matchesTsGlob (stripTimestampSuffix file) n = true := by
      cases hm : matchesTsGlob (stripTimestampSuffix file) n
      · exact absurd hm hc
      · rfl
    rw [hstrip] at hmt
    have hs := h n hn
    simp [servesName, hmt] at hs
  refine ⟨?_, ?_⟩
  · rw [glob_match_file_of_no_match L file now hpred, hstrip]
  · intro hfm
    have hs := h file hfm
    simp [servesName] at hs

theorem resolve_tomb (L0 : List Name) (file : Name) (now1 now2 : Nat)
    (hfile : file ≠ []) (hstrip : stripTimestampSuffix file = file)
    (h64 : now1 < 2 ^ 64) (hle : now1 ≤ now2)
    (h : ∀ n ∈ L0, servesName file n = false) :
    glob_match_file (L0 ++ [file ++ '.' :: natDigits now1]) file now2 = file ∧
    file ∉ L0 ++ [file ++ '.' :: natDigits now1] := by
  have hd_ne : natDigits now1 ≠ [] := by
    rw [natDigits_eq_rec]
    exact natDigitsRec_ne_nil now1
  have hd_all : ∀ c ∈ natDigits now1, c.isDigit = true := by
    rw [natDigits_eq_rec]
    exact natDigitsRec_all_digit now1
  have hmatch : matchesTsGlob (stripTimestampSuffix file)
      (file ++ '.' :: natDigits now1) = true := by
    rw [hstrip]
    cases hnd : natDigits now1 with
    | nil => exact absurd hnd hd_ne
    | cons c cs =>
      have hc : c.isDigit = true := hd_all c (by rw [hnd]; exact List.mem_cons_self c cs)
      exact matchesTsGlob_intro file c cs hc
  have hL0 : ∀ n ∈ L0, matchesTsGlob (stripTimestampSuffix file) n = false := by
    intro n hn
    by_contra hc
    have hmt : matchesTsGlob (stripTimestampSuffix file) n = true := by
      cases hm : matchesTsGlob (stripTimestampSuffix file) n
      · exact absurd hm hc
      · rfl
    rw [hstrip] at hmt
    have hs := h n hn
    simp [servesName, hmt] at hs
  have hfl : ((L0 ++ [file ++ '.' :: natDigits now1]).filter fun n =>
      matchesTsGlob (stripTimestampSuffix file) n) = [file ++ '.' :: natDigits now1] := by
    rw [List.filter_append]
    have h1 : (L0.filter fun n => matchesTsGlob (stripTimestampSuffix file) n) = [] := by
      rw [List.filter_eq_nil_iff]
      intro a ha
      simp [hL0 a ha]
    rw [h1]
    simp [hmatch]
  have hext : fileExtension (file ++ '.' :: natDigits now1) = some (natDigits now1) :=
    fileExtension_append_digits file (natDigits now1) hfile hd_ne hd_all
  have hg := @glob_match_file_eq_of_getLast (L0 ++ [file ++ '.' :: natDigits now1]) file
    now2 (file ++ '.' :: natDigits now1) (by rw [hfl]; exact List.getLast?_singleton _)
  refine ⟨?_, ?_⟩
  · rw [hg, hext, Option.some_bind, parseU64_natDigits now1 h64]
    show (if now2 < now1 then file ++ '.' :: natDigits now1
      else stripTimestampSuffix file) = file
    rw [if_neg (by omega), hstrip]
  · intro hfm
    rcases List.mem_append.mp hfm with hm | hm
    · have hs := h file hm
      simp [servesName] at hs
    · simp only [List.mem_singleton] at hm
      have hlen := congrArg List.length hm
      simp only [List.length_append, List.length_cons] at hlen
      omega

theorem servePickAlt_some (fs : Fs) (file : Name) (now : Nat) (rootRes : Name) :
    ∀ (l : List PT) (t : PT) (p : Name),
      servePickAlt fs file now rootRes l = some (t, p) →
      p = glob_match_file (fs.listing t) file now := by
  intro l
  induction l with
  | nil =>
    intro t p h
    simp [servePickAlt] at h
  | cons a rest ih =>
    intro t p h
    unfold servePickAlt at h
    split at h
    · rw [Option.some.injEq, Prod.mk.injEq] at h
      rcases h with ⟨rfl, h2⟩
      exact h2.symm
    · exact ih t p h

theorem serveChoose_alt (fs : Fs) (file : Name) (now : Nat) (t : PT) (p : Name)
    (h : serveChoose fs file now = (t, p)) (ht : t ≠ PT.file) :
    p = glob_match_file (fs.listing t) file now := by
  unfold serveChoose at h
  split at h
  · split at h
    · rename_i c heq
      subst h
      exact servePickAlt_some fs file now _ _ t p heq
    · rw [Prod.mk.injEq] at h
      exact absurd h.1.symm ht
  · rw [Prod.mk.injEq] at h
    exact absurd h.1.symm ht

theorem serveApply_notFound (fs : Fs) (file : Name) (now : Nat) (t : PT) (p : Name)
    (h : p ∉ fs.listing t) : serveApply fs file now (t, p) = (.notFound, fs) := by
  unfold serveApply
  exact if_neg h

theorem serve_notFound_of (fs : Fs) (file : Name) (now : Nat)
    (hroot : glob_match_file fs.root file now = file) (hrootmem : file ∉ fs.root)
    (hurl : glob_match_file fs.url file now = file) (hurlmem : file ∉ fs.url)
    (hone : glob_match_file fs.oneshot file now = file) (honemem : file ∉ fs.oneshot)
    (houn : glob_match_file fs.oneshotUrl file now = file) (hounmem : file ∉ fs.oneshotUrl) :
    serve fs file now = (.notFound, fs) := by
  unfold serve serveChoose
  rw [hroot, if_pos (Or.inl hrootmem)]
  simp only [servePickAlt, Fs.listing]
  rw [hurl, hone, houn]
  by_cases h1 : file ∈ fs.url ∨ file = PT.url.getDir
  · rw [if_pos h1]
    exact serveApply_notFound fs file now PT.url file hurlmem
  · rw [if_neg h1]
    by_cases h2 : file ∈ fs.oneshot ∨ file = PT.oneshot.getDir
    · rw [if_pos h2]
      exact serveApply_notFound fs file now PT.oneshot file honemem
    · rw [if_neg h2]
      by_cases h3 : file ∈ fs.oneshotUrl ∨ file = PT.oneshotUrl.getDir
      · rw [if_pos h3]
        exact serveApply_notFound fs file now PT.oneshotUrl file hounmem
      · rw [if_neg h3]
        exact serveApply_notFound fs file now PT.file file hrootmem

/-- C7: a one-shot artifact is served at most once.  When at most one stored
entry serves the requested name across all kind directories and a serve of
the name succeeds with kind Oneshot or OneshotUrl, the consumed entry of that
kind directory has been renamed to the requested name with the current
millisecond time appended (an immediately-expired timestamp suffix), the
other directories are untouched, and every later serve of the same name
returns 404 ("file is not found or expired") without further change. -/
theorem oneshot_serve_at_most_once (fs : Fs) (file : Name) (now : Nat)
    (t : PT) (fs' : Fs)
    (hfile : file ≠ [])
    (hstrip : stripTimestampSuffix file = file)
    (h64 : now < 2 ^ 64)
    (huniq : (fs.root ++ fs.url ++ fs.oneshot ++ fs.oneshotUrl).countP
      (servesName file) ≤ 1)
    (hkind : t = PT.oneshot ∨ t = PT.oneshotUrl)
    (hserve : serve fs file now = (.served t, fs')) :
    (∃ p, p ∈ fs.listing t ∧
      fs'.listing t = (fs.listing t).erase p ++ [file ++ '.' :: natDigits now]) ∧
    (∀ u, u ≠ t → fs'.listing u = fs.listing u) ∧
    (∀ now2, now ≤ now2 → serve fs' file now2 = (.notFound, fs')) := by
  unfold serve at hserve
  cases hc : serveChoose fs file now with
  | mk t0 p =>
    rw [hc] at hserve
    have happ : serveApply fs file now (t0, p) =
        if p ∈ fs.listing t0 then
          (match t0 with
          | PT.oneshot =>
            (.served PT.oneshot, { fs with oneshot := consume fs.oneshot p file now })
          | PT.oneshotUrl =>
            (.served PT.oneshotUrl,
              { fs with oneshotUrl := consume fs.oneshotUrl p file now })
          | u => (.served u, fs))
        else (.notFound, fs) := rfl
    rw [happ] at hserve
    by_cases hmem : p ∈ fs.listing t0
    case neg =>
      rw [if_neg hmem] at hserve
      exact absurd (congrArg Prod.fst hserve) (by simp)
    case pos =>
      rw [if_pos hmem] at hserve
      cases t0 with
      | file => rcases hkind with rfl | rfl <;> simp at hserve
      | remoteFile => rcases hkind with rfl | rfl <;> simp at hserve
      | url => rcases hkind with rfl | rfl <;> simp at hserve
      | oneshot =>
        rcases hkind with rfl | rfl
        · replace hserve : ((ServeResult.served PT.oneshot,
              { fs with oneshot := consume fs.oneshot p file now }) :
              ServeResult × Fs) = (.served PT.oneshot, fs') := hserve
          rw [Prod.mk.injEq] at hserve
          obtain ⟨-, hfs'⟩ := hserve
          subst hfs'
          have hpg : p = glob_match_file fs.oneshot file now := by
            have hx := serveChoose_alt fs file now PT.oneshot p hc (by simp)
            simpa [Fs.listing] using hx
          have hmemO : p ∈ fs.oneshot := hmem
          have hpred : servesName file p = true := by
            rw [hpg]
            exact servesName_of_glob fs.oneshot file now hstrip
          rw [List.countP_append, List.countP_append, List.countP_append] at huniq
          have hposO : 0 < fs.oneshot.countP (servesName file) :=
            List.countP_pos_iff.mpr ⟨p, hmemO, hpred⟩
          have hzR : fs.root.countP (servesName file) = 0 := by omega
          have hzU : fs.url.countP (servesName file) = 0 := by omega
          have hzOU : fs.oneshotUrl.countP (servesName file) = 0 := by omega
          have hoeq : fs.oneshot.countP (servesName file) = 1 := by omega
          have hnoR : ∀ n ∈ fs.root, servesName file n = false := by
            intro n hn
            simpa using List.countP_eq_zero.mp hzR n hn
          have hnoU : ∀ n ∈ fs.url, servesName file n = false := by
            intro n hn
            simpa using List.countP_eq_zero.mp hzU n hn
          have hnoOU : ∀ n ∈ fs.oneshotUrl, servesName file n = false := by
            intro n hn
            simpa using List.countP_eq_zero.mp hzOU n hn
          obtain ⟨l1, l2, hpl1, hceq, herase⟩ := List.exists_erase_eq hmemO
          have hcnt : l1.countP (servesName file) + (l2.countP (servesName file) + 1) = 1 := by
            rw [hceq, List.countP_append, List.countP_cons_of_pos _ _ hpred] at hoeq
            exact hoeq
          have hnoE : ∀ n ∈ fs.oneshot.erase p, servesName file n = false := by
            intro n hn
            rw [herase] at hn
            rcases List.mem_append.mp hn with hx | hx
            · have h0 : l1.countP (servesName file) = 0 := by omega
              simpa using List.countP_eq_zero.mp h0 n hx
            · have h0 : l2.countP (servesName file) = 0 := by omega
              simpa using List.countP_eq_zero.mp h0 n hx
          refine ⟨⟨p, hmem, rfl⟩, ?_, ?_⟩
          · intro u hu
            cases u
            · rfl
            · rfl
            · exact absurd rfl hu
            · rfl
            · rfl
          · intro now2 hle
            have hr := resolve_no_serving fs.root file now2 hstrip hnoR
            have hu2 := resolve_no_serving fs.url file now2 hstrip hnoU
            have hou2 := resolve_no_serving fs.oneshotUrl file now2 hstrip hnoOU
            have ho2 := resolve_tomb (fs.oneshot.erase p) file now now2 hfile hstrip
              h64 hle hnoE
            exact serve_notFound_of _ file now2 hr.1 hr.2 hu2.1 hu2.2 ho2.1 ho2.2
              hou2.1 hou2.2
        · simp at hserve
      | oneshotUrl =>
        rcases hkind with rfl | rfl
        · simp at hserve
        · replace hserve : ((ServeResult.served PT.oneshotUrl,
              { fs with oneshotUrl := consume fs.oneshotUrl p file now }) :
              ServeResult × Fs) = (.served PT.oneshotUrl, fs') := hserve
          rw [Prod.mk.injEq] at hserve
          obtain ⟨-, hfs'⟩ := hserve
          subst hfs'
          have hpg : p = glob_match_file fs.oneshotUrl file now := by
            have hx := serveChoose_alt fs file now PT.oneshotUrl p hc (by simp)
            simpa [Fs.listing] using hx
          have hmemO : p ∈ fs.oneshotUrl := hmem
          have hpred : servesName file p = true := by
            rw [hpg]
            exact servesName_of_glob fs.oneshotUrl file now hstrip
          rw [List.countP_append, List.countP_append, List.countP_append] at huniq
          have hposO : 0 < fs.oneshotUrl.countP (servesName file) :=
            List.countP_pos_iff.mpr ⟨p, hmemO, hpred⟩
          have hzR : fs.root.countP (servesName file) = 0 := by omega
          have hzU : fs.url.countP (servesName file) = 0 := by omega
          have hzO : fs.oneshot.countP (servesName file) = 0 := by omega
          have hoeq : fs.oneshotUrl.countP (servesName file) = 1 := by omega
          have hnoR : ∀ n ∈ fs.root, servesName file n = false := by
            intro n hn
            simpa using List.countP_eq_zero.mp hzR n hn
          have hnoU : ∀ n ∈ fs.url, servesName file n = false := by
            intro n hn
            simpa using List.countP_eq_zero.mp hzU n hn
          have hnoO : ∀ n ∈ fs.oneshot, servesName file n = false := by
            intro n hn
            simpa using List.countP_eq_zero.mp hzO n hn
          obtain ⟨l1, l2, hpl1, hceq, herase⟩ := List.exists_erase_eq hmemO
          have hcnt : l1.countP (servesName file) + (l2.countP (servesName file) + 1) = 1 := by
            rw [hceq, List.countP_append, List.countP_cons_of_pos _ _ hpred] at hoeq
            exact hoeq
          have hnoE : ∀ n ∈ fs.oneshotUrl.erase p, servesName file n = false := by
            intro n hn
            rw [herase] at hn
            rcases List.mem_append.mp hn with hx | hx
            · have h0 : l1.countP (servesName file) = 0 := by omega
              simpa using List.countP_eq_zero.mp h0 n hx
            · have h0 : l2.countP (servesName file) = 0 := by omega
              simpa using List.countP_eq_zero.mp h0 n hx
          refine ⟨⟨p, hmem, rfl⟩, ?_, ?_⟩
          · intro u hu
            cases u
            · rfl
            · rfl
            · rfl
            · rfl
            · exact absurd rfl hu
          · intro now2 hle
            have hr := resolve_no_serving fs.root file now2 hstrip hnoR
            have hu2 := resolve_no_serving fs.url file now2 hstrip hnoU
            have ho2 := resolve_no_serving fs.oneshot file now2 hstrip hnoO
            have hou2 := resolve_tomb (fs.oneshotUrl.erase p) file now now2 hfile hstrip
              h64 hle hnoE
            exact serve_notFound_of _ file now2 hr.1 hr.2 hu2.1 hu2.2 ho2.1 ho2.2
              hou2.1 hou2.2

/-- C7 witness: a oneshot directory holding exactly x.txt serves it once,
renaming it to x.txt.1000 at millisecond time 1000, after which serving the
name again finds nothing. -/
theorem oneshot_serve_at_most_once_witness :
    (∃ p, p ∈ (Fs.mk [] [("x.txt").data] [] []).listing PT.oneshot ∧
      (Fs.mk [] [("x.txt").data ++ '.' :: natDigits 1000] [] []).listing PT.oneshot =
        ((Fs.mk [] [("x.txt").data] [] []).listing PT.oneshot).erase p ++
          [("x.txt").data ++ '.' :: natDigits 1000]) ∧
    (∀ u, u ≠ PT.oneshot →
      (Fs.mk [] [("x.txt").data ++ '.' :: natDigits 1000] [] []).listing u =
        (Fs.mk [] [("x.txt").data] [] []).listing u) ∧
    (∀ now2, 1000 ≤ now2 →
      serve (Fs.mk [] [("x.txt").data ++ '.' :: natDigits 1000] [] [])
        (("x.txt").data) now2 =
        (.notFound, Fs.mk [] [("x.txt").data ++ '.' :: natDigits 1000] [] [])) :=
  oneshot_serve_at_most_once (Fs.mk [] [("x.txt").data] [] []) (("x.txt").data) 1000
    PT.oneshot (Fs.mk [] [("x.txt").data ++ '.' :: natDigits 1000] [] [])
    (by decide) (by decide) (by decide) (by decide) (Or.inl rfl) (by decide)
